/-
Verification of the pyNBT Named Binary Tag parser (src/nbt.py).

The embedding models the Python code over byte streams represented as
List Nat (each element one byte, 0-255).  Python exceptions are modelled
by an explicit error type; every constructor corresponds to one concrete
raise site in the source.  Python 2 slicing (including negative slice
bounds) and the exact-length behaviour of struct.unpack / struct.pack are
modelled directly.
-/
import Mathlib

namespace PyNbt

/-- Errors. Each constructor models one concrete Python failure mode:
truncatedInput models the struct.error raised when struct.unpack receives
fewer bytes than the format requires; unknownTagType models the KeyError
raised by the dict lookup type_bytes[type_byte]; attributeError models
AttributeError (entries.values() on a list in TAG_Compound.write, the
missing read classmethod on TAG_End, entry.name.data with name None);
unboundLocal models the UnboundLocalError raised by nbt.read_tag when the
root type id is End and the local variable tag was never assigned;
unpackMismatch models the struct.error raised when struct.unpack receives
more bytes than the format holds slots for; packError models the
struct.error raised by struct.pack on an out-of-range argument or a wrong
argument count; typeError models the TypeError from calling TAG_End.write
with an argument it does not accept; divergence marks inputs on which the
nbt.read while loop never terminates (the stream fails to shrink). -/
inductive PyError where
  | truncatedInput
  | unknownTagType
  | attributeError
  | unboundLocal
  | unpackMismatch
  | packError
  | typeError
  | divergence
deriving DecidableEq, Repr

/-- Tag kinds, one per TAG subclass of the source. -/
inductive TagKind where
  | tEnd
  | tByte
  | tShort
  | tInt
  | tLong
  | tFloat
  | tDouble
  | tByteArray
  | tString
  | tList
  | tCompound
deriving DecidableEq, Repr

/-- Class attribute byte of each TAG subclass. -/
def byteOfKind : TagKind → Nat
  | .tEnd => 0
  | .tByte => 1
  | .tShort => 2
  | .tInt => 3
  | .tLong => 4
  | .tFloat => 5
  | .tDouble => 6
  | .tByteArray => 7
  | .tString => 8
  | .tList => 9
  | .tCompound => 10

/-- The type_bytes dict (src/nbt.py lines 390-392): maps a signed type id
to the TAG subclass; a miss is a KeyError. -/
def lookupKind (i : Int) : Option TagKind :=
  if i = 0 then some .tEnd
  else if i = 1 then some .tByte
  else if i = 2 then some .tShort
  else if i = 3 then some .tInt
  else if i = 4 then some .tLong
  else if i = 5 then some .tFloat
  else if i = 6 then some .tDouble
  else if i = 7 then some .tByteArray
  else if i = 8 then some .tString
  else if i = 9 then some .tList
  else if i = 10 then some .tCompound
  else none

/-- Payload of a TAG_String object: the pair of the stored TAG_Short value
(strLen, which the source never checks against the actual data) and the
raw string bytes. A name is such a payload with the inner name None. -/
structure PyStr where
  strLen : Int
  strData : List Nat
deriving DecidableEq, Repr

/-- In-memory tag tree, one constructor per TAG subclass. Numeric tags
store the value struct.unpack produced (a signed integer).  Float and
Double payloads are carried as their raw big-endian IEEE-754 words, since
the source never computes with them, only unpacks and repacks the bytes.
TAG_Compound appears twice: tagCompoundL models the documented
constructor argument (a Python list of tags, per the docstring of
TAG_Compound init) and tagCompoundD models the name-keyed dict that
TAG_Compound.read actually builds; the Python object stores whichever it
was given. -/
inductive Tag where
  | tagByte (name : Option PyStr) (val : Int)
  | tagShort (name : Option PyStr) (val : Int)
  | tagInt (name : Option PyStr) (val : Int)
  | tagLong (name : Option PyStr) (val : Int)
  | tagFloat (name : Option PyStr) (bits : Int)
  | tagDouble (name : Option PyStr) (bits : Int)
  | tagString (name : Option PyStr) (len : Int) (data : List Nat)
  | tagByteArray (name : Option PyStr) (len : Int) (bytes : List Int)
  | tagList (name : Option PyStr) (len : Int) (elemType : TagKind) (entries : List Tag)
  | tagCompoundL (name : Option PyStr) (entries : List Tag)
  | tagCompoundD (name : Option PyStr) (entries : List (List Nat × Tag))
  | tagEnd

/-- The name attribute of a tag. -/
def tagName : Tag → Option PyStr
  | .tagByte n _ => n
  | .tagShort n _ => n
  | .tagInt n _ => n
  | .tagLong n _ => n
  | .tagFloat n _ => n
  | .tagDouble n _ => n
  | .tagString n _ _ => n
  | .tagByteArray n _ _ => n
  | .tagList n _ _ _ => n
  | .tagCompoundL n _ => n
  | .tagCompoundD n _ => n
  | .tagEnd => none

/-- Big-endian unsigned value of a byte list. -/
def beNat (bs : List Nat) : Nat :=
  bs.foldl (fun a b => a * 256 + b % 256) 0

/-- Two-complement signed reading of a w-byte unsigned value, as
struct.unpack does for the signed formats b, h, i, q. -/
def toSigned (w : Nat) (n : Nat) : Int :=
  let m := n % 2 ^ (8 * w)
  if m < 2 ^ (8 * w - 1) then (m : Int) else (m : Int) - 2 ^ (8 * w)

/-- Signed value of a single byte (struct.unpack format b). -/
def sbyte (b : Nat) : Int := toSigned 1 b

/-- Exactly w bytes from the front of a stream, or none when fewer remain.
Models the fact that stream[:w] followed by struct.unpack fails with
struct.error precisely when fewer than w bytes remain. -/
def takeExact : Nat → List Nat → Option (List Nat)
  | 0, _ => some []
  | _ + 1, [] => none
  | w + 1, b :: s => (takeExact w s).map (b :: ·)

/-- Python slice s[:n] with a possibly negative bound n. -/
def pyTake (s : List Nat) (n : Int) : List Nat :=
  if 0 ≤ n then s.take n.toNat else s.take (((s.length : Int) + n).toNat)

/-- Python slice s[n:] with a possibly negative bound n. -/
def pySliceFrom (s : List Nat) (n : Int) : List Nat :=
  if 0 ≤ n then s.drop n.toNat else s.drop (((s.length : Int) + n).toNat)

/-- Big-endian bytes of an unsigned value, fixed width. -/
def bytesOfNat : Nat → Nat → List Nat
  | 0, _ => []
  | w + 1, n => bytesOfNat w (n / 256) ++ [n % 256]

/-- struct.pack of a signed integer: struct.error when the value does not
fit the format, otherwise the big-endian two-complement bytes. -/
def packSigned (w : Nat) (v : Int) : Except PyError (List Nat) :=
  if -(2 ^ (8 * w - 1)) ≤ v ∧ v < 2 ^ (8 * w - 1) then
    .ok (bytesOfNat w ((v % 2 ^ (8 * w)).toNat))
  else .error .packError

/-- struct.pack of a float or double carried as its raw word. -/
def packWord (w : Nat) (v : Int) : List Nat :=
  bytesOfNat w ((v % 2 ^ (8 * w)).toNat)

/-- TAG_String.read with named=False (src/nbt.py lines 122-147): read a
TAG_Short length, slice that many bytes (silently truncating when fewer
remain), and report 2 + length bytes read even then. -/
def readStringCore (s : List Nat) : Except PyError (PyStr × Int) :=
  match takeExact 2 s with
  | none => .error .truncatedInput
  | some bs =>
    let len := toSigned 2 (beNat bs)
    .ok (⟨len, pyTake (pySliceFrom s 2) len⟩, 2 + len)

/-- The shared name-reading prologue of every read classmethod: when named,
read a TAG_String from the front and report its byte count; the caller
advances the stream itself. -/
def readName (s : List Nat) (named : Bool) : Except PyError (Option PyStr × Int) :=
  if named then
    match readStringCore s with
    | .error e => .error e
    | .ok (sd, n) => .ok (some sd, n)
  else .ok (none, 0)

/-- TAG_Basic.read (src/nbt.py lines 42-62): optional name, then exactly
w bytes unpacked big-endian; signed selects two-complement reading (the
integer formats) versus the raw word (the float formats). -/
def readBasic (w : Nat) (signed : Bool) (mk : Option PyStr → Int → Tag)
    (s : List Nat) (named : Bool) : Except PyError (Tag × Int) :=
  match readName s named with
  | .error e => .error e
  | .ok (name, nb) =>
    match takeExact w (pySliceFrom s nb) with
    | none => .error .truncatedInput
    | some bs =>
      .ok (mk name (if signed then toSigned w (beNat bs) else (beNat bs : Int)), nb + (w : Int))

/-- TAG_String.read with an optional name. -/
def readStringTag (s : List Nat) (named : Bool) : Except PyError (Tag × Int) :=
  match readName s named with
  | .error e => .error e
  | .ok (name, nb) =>
    match readStringCore (pySliceFrom s nb) with
    | .error e => .error e
    | .ok (sd, n) => .ok (.tagString name sd.strLen sd.strData, nb + n)

/-- TAG_Byte_Array.read (src/nbt.py lines 253-279): optional name, a
TAG_Int count, then struct.unpack with format b repeated count times on
stream[:count].  A negative count yields an empty format string and a
negative slice bound, so the unpack succeeds exactly when at most
abs(count) bytes remain; the reported byte count still adds the negative
count. -/
def readByteArrayTag (s : List Nat) (named : Bool) : Except PyError (Tag × Int) :=
  match readName s named with
  | .error e => .error e
  | .ok (name, nb) =>
    let s2 := pySliceFrom s nb
    match takeExact 4 s2 with
    | none => .error .truncatedInput
    | some lb =>
      let len := toSigned 4 (beNat lb)
      let s3 := pySliceFrom s2 4
      let slice := pyTake s3 len
      if 0 ≤ len then
        if slice.length = len.toNat then
          .ok (.tagByteArray name len (slice.map sbyte), nb + 4 + len)
        else .error .truncatedInput
      else
        if slice.isEmpty then .ok (.tagByteArray name len [], nb + 4 + len)
        else .error .unpackMismatch

theorem pySliceFrom_length_le (s : List Nat) (n : Int) :
    (pySliceFrom s n).length ≤ s.length := by
  unfold pySliceFrom
  split <;> simp

theorem pySliceFrom_zero (s : List Nat) : pySliceFrom s 0 = s := by
  simp [pySliceFrom]

/-- Python dict assignment d[k] = v on the name-keyed entries dict: replace
the value at an existing key in place, otherwise append the binding.  The
model keeps insertion order; the properties proved about it (size and
lookup) do not depend on iteration order, which for a CPython 2 dict is
hash-table order. -/
def dictInsert (d : List (List Nat × Tag)) (k : List Nat) (v : Tag) :
    List (List Nat × Tag) :=
  match d with
  | [] => [(k, v)]
  | (k0, v0) :: rest =>
    if k0 = k then (k0, v) :: rest else (k0, v0) :: dictInsert rest k v

/-- Lemmas used by the termination argument of the reader. -/
theorem lex3_first {a1 b1 c1 a2 b2 c2 : Nat} (h : a1 < a2) :
    Prod.Lex (· < ·) (Prod.Lex (· < ·) (· < ·))
      ((a1, b1, c1) : Nat × Nat × Nat) (a2, b2, c2) :=
  Prod.Lex.left _ _ h

theorem lex3_second {a b1 c1 b2 c2 : Nat} (h : b1 < b2) :
    Prod.Lex (· < ·) (Prod.Lex (· < ·) (· < ·))
      ((a, b1, c1) : Nat × Nat × Nat) (a, b2, c2) :=
  Prod.Lex.right _ (Prod.Lex.left _ _ h)

theorem lex3_third {a b c1 c2 : Nat} (h : c1 < c2) :
    Prod.Lex (· < ·) (Prod.Lex (· < ·) (· < ·))
      ((a, b, c1) : Nat × Nat × Nat) (a, b, c2) :=
  Prod.Lex.right _ (Prod.Lex.right _ h)

mutual

/-- The dispatched read classmethod tag_type.read(stream, named) of each
TAG subclass.  For TAG_End the dispatch fails: neither TAG_End nor TAG
defines a read classmethod, so tag_type.read raises AttributeError.
TAG_List.read is src/nbt.py lines 173-207, TAG_Compound.read is lines
311-344. -/
def tagRead (k : TagKind) (stream : List Nat) (named : Bool) :
    Except PyError (Tag × Int) :=
  match k with
  | .tEnd => .error .attributeError
  | .tByte => readBasic 1 true .tagByte stream named
  | .tShort => readBasic 2 true .tagShort stream named
  | .tInt => readBasic 4 true .tagInt stream named
  | .tLong => readBasic 8 true .tagLong stream named
  | .tFloat => readBasic 4 false .tagFloat stream named
  | .tDouble => readBasic 8 false .tagDouble stream named
  | .tString => readStringTag stream named
  | .tByteArray => readByteArrayTag stream named
  | .tList =>
    match readName stream named with
    | .error e => .error e
    | .ok (name, nb) =>
      match h2 : pySliceFrom stream nb with
      | [] => .error .truncatedInput
      | tb :: s3 =>
        match lookupKind (sbyte tb) with
        | none => .error .unknownTagType
        | some ek =>
          match takeExact 4 s3 with
          | none => .error .truncatedInput
          | some cb =>
            let c := toSigned 4 (beNat cb)
            match tagReadListEntries ek c.toNat (pySliceFrom s3 4) with
            | .error e => .error e
            | .ok (es, eb) => .ok (.tagList name c ek es, nb + 1 + 4 + eb)
  | .tCompound =>
    match readName stream named with
    | .error e => .error e
    | .ok (name, nb) =>
      match tagReadCompoundEntries (pySliceFrom stream nb) [] with
      | .error e => .error e
      | .ok (d, eb) => .ok (.tagCompoundD name d, nb + eb)
termination_by (stream.length, 1, 0)
decreasing_by
  · have hle := pySliceFrom_length_le stream nb
    rw [h2] at hle
    have h4 := pySliceFrom_length_le s3 4
    simp only [List.length_cons] at hle
    have h5 : (pySliceFrom s3 4).length + 1 ≤ stream.length := by omega
    rcases Nat.lt_or_eq_of_le h5 with h6 | h6
    · exact lex3_first h6
    · rw [← h6]
      exact lex3_second Nat.zero_lt_one
  · have hle := pySliceFrom_length_le stream nb
    rcases Nat.lt_or_eq_of_le hle with h6 | h6
    · exact lex3_first h6
    · rw [← h6]
      exact lex3_second Nat.zero_lt_one

/-- The element loop of TAG_List.read: count recursive unnamed reads, the
stream advanced by each reported byte count. -/
def tagReadListEntries (k : TagKind) (c : Nat) (s : List Nat) :
    Except PyError (List Tag × Int) :=
  match c with
  | 0 => .ok ([], 0)
  | c' + 1 =>
    match tagRead k s false with
    | .error e => .error e
    | .ok (t, n) =>
      match tagReadListEntries k c' (pySliceFrom s n) with
      | .error e => .error e
      | .ok (ts, m) => .ok (t :: ts, n + m)
termination_by (s.length + 1, 0, c)
decreasing_by
  · exact lex3_first (Nat.lt_succ_self _)
  · have hle := pySliceFrom_length_le s n
    have h5 : (pySliceFrom s n).length + 1 ≤ s.length + 1 := by omega
    rcases Nat.lt_or_eq_of_le h5 with h6 | h6
    · exact lex3_first h6
    · rw [← h6]
      exact lex3_third (Nat.lt_succ_self _)

/-- The entry loop of TAG_Compound.read: read one type id byte, stop on
End, otherwise read a named entry, store it in the dict under
entry.name.data, and continue.  The accumulated byte count includes one
byte per type id and one for the final End byte. -/
def tagReadCompoundEntries (s : List Nat) (acc : List (List Nat × Tag)) :
    Except PyError (List (List Nat × Tag) × Int) :=
  match s with
  | [] => .error .truncatedInput
  | tb :: s1 =>
    match lookupKind (sbyte tb) with
    | none => .error .unknownTagType
    | some k =>
      if k = .tEnd then .ok (acc, 1)
      else
        match tagRead k s1 true with
        | .error e => .error e
        | .ok (t, n) =>
          match tagName t with
          | none => .error .attributeError
          | some nd =>
            match tagReadCompoundEntries (pySliceFrom s1 n) (dictInsert acc nd.strData t) with
            | .error e => .error e
            | .ok (d, m) => .ok (d, 1 + n + m)
termination_by (s.length, 0, 0)
decreasing_by
  · simp only [List.length_cons]
    exact lex3_first (Nat.lt_succ_self _)
  · simp only [List.length_cons]
    have hle := pySliceFrom_length_le s1 n
    exact lex3_first (by omega)

end

/-- nbt.read_tag (src/nbt.py lines 445-460): one type id byte via
get_tag_type, then a named read dispatched on the type.  When the type is
TAG_End the read is skipped and the method falls through to return the
local variable tag, which was never assigned, raising
UnboundLocalError. -/
def nbtReadTag (s : List Nat) : Except PyError (Tag × Int) :=
  match s with
  | [] => .error .truncatedInput
  | b :: s1 =>
    match lookupKind (sbyte b) with
    | none => .error .unknownTagType
    | some k =>
      if k = .tEnd then .error .unboundLocal
      else
        match tagRead k s1 true with
        | .error e => .error e
        | .ok (t, n) => .ok (t, 1 + n)

/-- nbt.read (src/nbt.py lines 421-428): read root tags until the stream
is empty, advancing by each reported byte count.  When a read reports a
nonpositive byte count that fails to shrink the remaining stream, the
Python while loop re-reads the identical stream forever; the model marks
those inputs with the divergence error. -/
def nbtRead (s : List Nat) : Except PyError (List Tag) :=
  match s with
  | [] => .ok []
  | b :: s1 =>
    match nbtReadTag (b :: s1) with
    | .error e => .error e
    | .ok (t, n) =>
      let rest := pySliceFrom (b :: s1) n
      if h : rest.length < (b :: s1).length then
        match nbtRead rest with
        | .error e => .error e
        | .ok ts => .ok (t :: ts)
      else .error .divergence
termination_by s.length
decreasing_by
  simpa using h

/-- String bytes of a name attribute: TAG.write emits the name via
TAG_String.write(False) whenever it is present.  The stored TAG_Short
length is packed; the raw data follows unchecked. -/
def nameBytes (name : Option PyStr) : Except PyError (List Nat) :=
  match name with
  | none => .ok []
  | some nd =>
    match packSigned 2 nd.strLen with
    | .error e => .error e
    | .ok lb => .ok (lb ++ nd.strData)

/-- TAG.write (src/nbt.py lines 18-27): the optional leading type id byte
followed by the optional name. -/
def writeHeader (k : TagKind) (name : Option PyStr) (tb : Bool) :
    Except PyError (List Nat) :=
  match nameBytes name with
  | .error e => .error e
  | .ok nbs => .ok ((if tb then [byteOfKind k] else []) ++ nbs)

/-- struct.pack with format b repeated len times applied to the byte array
elements: struct.error when the argument count disagrees with the format
or a value is out of the signed byte range.  A nonpositive len repeats the
format zero times, which packs successfully exactly when the tuple is
empty. -/
def packByteArray (len : Int) (arr : List Int) : Except PyError (List Nat) :=
  if 0 ≤ len then
    if arr.length = len.toNat ∧ ∀ v ∈ arr, -128 ≤ v ∧ v < 128 then
      .ok (arr.map (fun v => (v % 256).toNat))
    else .error .packError
  else
    if arr.isEmpty then .ok [] else .error .packError

/-- TAG_Basic.write (src/nbt.py lines 64-70): header then the packed
value. -/
def writeBasicBytes (k : TagKind) (name : Option PyStr) (tb : Bool)
    (w : Nat) (v : Int) : Except PyError (List Nat) :=
  match writeHeader k name tb with
  | .error e => .error e
  | .ok h =>
    match packSigned w v with
    | .error e => .error e
    | .ok vb => .ok (h ++ vb)

mutual

/-- The write method of each TAG subclass, modelling the string the method
returns or the exception it raises.  tagCompoundL write models
TAG_Compound.write applied to the documented constructor argument, a
list: self.entries.values() raises AttributeError.  tagEnd write models
TAG_End.write, which accepts no type_byte argument: calling it the way
list elements are written (entry.write(False)) raises TypeError. -/
def tagWrite (t : Tag) (tb : Bool) : Except PyError (List Nat) :=
  match t with
  | .tagByte name v => writeBasicBytes .tByte name tb 1 v
  | .tagShort name v => writeBasicBytes .tShort name tb 2 v
  | .tagInt name v => writeBasicBytes .tInt name tb 4 v
  | .tagLong name v => writeBasicBytes .tLong name tb 8 v
  | .tagFloat name bits =>
    match writeHeader .tFloat name tb with
    | .error e => .error e
    | .ok h => .ok (h ++ packWord 4 bits)
  | .tagDouble name bits =>
    match writeHeader .tDouble name tb with
    | .error e => .error e
    | .ok h => .ok (h ++ packWord 8 bits)
  | .tagString name len data =>
    match writeHeader .tString name tb with
    | .error e => .error e
    | .ok h =>
      match packSigned 2 len with
      | .error e => .error e
      | .ok lb => .ok (h ++ lb ++ data)
  | .tagByteArray name len arr =>
    match writeHeader .tByteArray name tb with
    | .error e => .error e
    | .ok h =>
      match packSigned 4 len with
      | .error e => .error e
      | .ok lb =>
        match packByteArray len arr with
        | .error e => .error e
        | .ok body => .ok (h ++ lb ++ body)
  | .tagList name len ek es =>
    match writeHeader .tList name tb with
    | .error e => .error e
    | .ok h =>
      match packSigned 1 (byteOfKind ek) with
      | .error e => .error e
      | .ok ekb =>
        match packSigned 4 len with
        | .error e => .error e
        | .ok lb =>
          match tagWriteSeq es with
          | .error e => .error e
          | .ok body => .ok (h ++ ekb ++ lb ++ body)
  | .tagCompoundL name _ =>
    match writeHeader .tCompound name tb with
    | .error e => .error e
    | .ok _ => .error .attributeError
  | .tagCompoundD name es =>
    match writeHeader .tCompound name tb with
    | .error e => .error e
    | .ok h =>
      match tagWriteDict es with
      | .error e => .error e
      | .ok body => .ok (h ++ body ++ [0])
  | .tagEnd => if tb then .ok [0] else .error .typeError

/-- The element loop of TAG_List.write: each entry written without its
type id byte. -/
def tagWriteSeq (ts : List Tag) : Except PyError (List Nat) :=
  match ts with
  | [] => .ok []
  | t :: rest =>
    match tagWrite t false with
    | .error e => .error e
    | .ok b =>
      match tagWriteSeq rest with
      | .error e => .error e
      | .ok bs => .ok (b ++ bs)

/-- The entry loop of TAG_Compound.write over the dict values: each child
written with its type id byte and name. -/
def tagWriteDict (es : List (List Nat × Tag)) : Except PyError (List Nat) :=
  match es with
  | [] => .ok []
  | (_, t) :: rest =>
    match tagWrite t true with
    | .error e => .error e
    | .ok b =>
      match tagWriteDict rest with
      | .error e => .error e
      | .ok bs => .ok (b ++ bs)

end

/-- nbt.write (src/nbt.py lines 430-437): concatenation of every root tag
written with its type id byte. -/
def nbtWrite (tags : List Tag) : Except PyError (List Nat) :=
  match tags with
  | [] => .ok []
  | t :: rest =>
    match tagWrite t true with
    | .error e => .error e
    | .ok b =>
      match nbtWrite rest with
      | .error e => .error e
      | .ok bs => .ok (b ++ bs)

/-- Fixed byte width of the TAG_Basic subclasses, none for the others. -/
def basicWidth : TagKind → Option Nat
  | .tByte => some 1
  | .tShort => some 2
  | .tInt => some 4
  | .tLong => some 8
  | .tFloat => some 4
  | .tDouble => some 8
  | _ => none

/-- Keys of the entries dict. -/
def dictKeys (d : List (List Nat × Tag)) : List (List Nat) :=
  d.map Prod.fst

/-- Python dict lookup d[k] on the entries dict. -/
def dictLookup (d : List (List Nat × Tag)) (k : List Nat) : Option Tag :=
  match d with
  | [] => none
  | (k0, v) :: rest => if k0 = k then some v else dictLookup rest k

/-- One named entry on the wire inside a Compound payload: its full byte
block (type id, name, payload), the tag it decodes to, and the name string
under which the dict stores it. -/
structure WireEntry where
  block : List Nat
  tag : Tag
  key : List Nat

/-- The block of a wire entry parses as one compound entry: its first byte
resolves to a non-End tag kind whose named read consumes exactly the rest
of the block, independently of what follows, and yields a tag named by the
entry key. -/
def EntryBlock (e : WireEntry) : Prop :=
  ∃ k kb body nd,
    e.block = kb :: body ∧
    lookupKind (sbyte kb) = some k ∧
    k ≠ .tEnd ∧
    tagName e.tag = some nd ∧
    nd.strData = e.key ∧
    ∀ rest, tagRead k (body ++ rest) true = .ok (e.tag, (body.length : Int))

/-- The entries dict obtained by inserting each wire entry in order. -/
def insDict (acc : List (List Nat × Tag)) (es : List WireEntry) :
    List (List Nat × Tag) :=
  es.foldl (fun d e => dictInsert d e.key e.tag) acc

/-- The tag of the last wire entry carrying a given key, if any. -/
def lastKeyed (es : List WireEntry) (k : List Nat) : Option Tag :=
  match es with
  | [] => none
  | e :: rest =>
    match lastKeyed rest k with
    | some t => some t
    | none => if e.key = k then some e.tag else none

/-- Compound payload bytes of a compound nested d levels deeper: an End
byte alone at depth 0, otherwise one entry (type id 10, empty name, the
next payload) followed by the End byte. -/
def nestedPayload : Nat → List Nat
  | 0 => [0]
  | d + 1 => 10 :: 0 :: 0 :: (nestedPayload d ++ [0])

/-- The tag tree nestedPayload decodes to, each level an empty-named
compound holding the next. -/
def nestedTag : Nat → Tag
  | 0 => .tagCompoundD (some ⟨0, []⟩) []
  | d + 1 => .tagCompoundD (some ⟨0, []⟩) [([], nestedTag d)]

theorem lookupKind_byteOfKind (k : TagKind) :
    lookupKind (sbyte (byteOfKind k)) = some k := by
  cases k <;> rfl

theorem takeExact_eq_none_of_lt {w : Nat} {s : List Nat} (h : s.length < w) :
    takeExact w s = none := by
  induction w generalizing s with
  | zero => omega
  | succ w ih =>
    cases s with
    | nil => rfl
    | cons b s =>
      simp only [takeExact]
      rw [ih (by simpa using h)]
      rfl

theorem takeExact_append (bs rest : List Nat) :
    takeExact bs.length (bs ++ rest) = some bs := by
  induction bs with
  | nil => rfl
  | cons b bs ih => simp [takeExact, ih]

theorem pySliceFrom_append (a b : List Nat) :
    pySliceFrom (a ++ b) ((a.length : Nat) : Int) = b := by
  simp [pySliceFrom, List.drop_left]

theorem readName_false (s : List Nat) : readName s false = .ok (none, 0) := rfl

theorem readName_true (s : List Nat) :
    readName s true =
      match readStringCore s with
      | .error e => .error e
      | .ok (sd, n) => .ok (some sd, n) := rfl

/-- Unfolding of the unnamed TAG_List.read in a form the rewriter can use:
the name prologue is empty, so the stream starts at the element type
byte. -/
theorem tagRead_list_unnamed (tb : Nat) (s3 : List Nat) :
    tagRead .tList (tb :: s3) false =
      match lookupKind (sbyte tb) with
      | none => .error .unknownTagType
      | some ek =>
        match takeExact 4 s3 with
        | none => .error .truncatedInput
        | some cb =>
          match tagReadListEntries ek (toSigned 4 (beNat cb)).toNat
              (pySliceFrom s3 4) with
          | .error e => .error e
          | .ok (es, eb) =>
            .ok (.tagList none (toSigned 4 (beNat cb)) ek es, 0 + 1 + 4 + eb) := by
  rw [tagRead]
  simp only [readName_false]
  have h0 : pySliceFrom (tb :: s3) 0 = tb :: s3 := pySliceFrom_zero _
  split
  · rename_i h2
    rw [h0] at h2
    cases h2
  · rename_i tb2 s4 h2
    rw [h0] at h2
    cases h2
    rfl

/-- C1: encoding a compound built through the documented construction API
fails.  The TAG_Compound constructor docstring requires the data argument
to be a list of tags, but TAG_Compound.write iterates self.entries.values(),
which only a dict provides, so writing any API-built compound raises
AttributeError and the decode of the encoding never happens.  Here the
failing tree is an empty compound named x. -/
theorem claim1_construction_roundtrip_bug :
    tagWrite (.tagCompoundL (some ⟨1, [120]⟩) []) true = .error .attributeError := rfl

/-- C3: a type id byte resolving to no entry of the type_bytes table makes
decoding fail with the unknown-tag-type error (the KeyError of the dict
lookup) and yield no tag, at the document root, at an entry position
inside a Compound payload, and at the element-type position of a List
payload alike. -/
theorem claim3_unknown_tag_type (b : Nat) (s : List Nat)
    (h : lookupKind (sbyte b) = none) :
    nbtReadTag (b :: s) = .error .unknownTagType ∧
    tagRead .tCompound (b :: s) false = .error .unknownTagType ∧
    tagRead .tList (b :: s) false = .error .unknownTagType := by
  refine ⟨?_, ?_, ?_⟩
  · simp [nbtReadTag, h]
  · simp [tagRead, readName, pySliceFrom_zero, tagReadCompoundEntries, h]
  · rw [tagRead_list_unnamed, h]

/-- Witness for claim3_unknown_tag_type at type id byte 99. -/
theorem claim3_witness :
    lookupKind (sbyte 99) = none ∧
    (nbtReadTag (99 :: [1, 2]) = .error .unknownTagType ∧
      tagRead .tCompound (99 :: [1, 2]) false = .error .unknownTagType ∧
      tagRead .tList (99 :: [1, 2]) false = .error .unknownTagType) :=
  ⟨rfl, claim3_unknown_tag_type 99 [1, 2] rfl⟩

/-- C4: a fixed-width primitive read on a stream holding fewer bytes than
the width of the kind fails with the truncated-input error (the
struct.error of struct.unpack on a short slice) and returns no value. -/
theorem claim4_truncated_primitive (k : TagKind) (w : Nat) (s : List Nat)
    (hw : basicWidth k = some w) (hs : s.length < w) :
    tagRead k s false = .error .truncatedInput := by
  have ht := takeExact_eq_none_of_lt hs
  cases k <;>
    simp_all [basicWidth, tagRead, readBasic, readName, pySliceFrom_zero]

/-- Witness for claim4_truncated_primitive: three of the four Int bytes. -/
theorem claim4_witness :
    basicWidth .tInt = some 4 ∧ ([0, 1, 2] : List Nat).length < 4 ∧
    tagRead .tInt [0, 1, 2] false = .error .truncatedInput :=
  ⟨rfl, by decide, claim4_truncated_primitive .tInt 4 [0, 1, 2] rfl (by decide)⟩

/-- C6: a root-level End type id byte makes document decoding fail, but
through the UnboundLocalError of nbt.read_tag (whose End branch returns
the never-assigned local variable tag), not through a dedicated
unexpected-End decode error, which the code does not define. -/
theorem claim6_root_end_crash :
    nbtReadTag [0] = .error .unboundLocal ∧
    nbtRead [0] = .error .unboundLocal := by
  constructor <;> simp [nbtRead, nbtReadTag, lookupKind, sbyte, toSigned]

/-- C5 counterexample: a List payload declaring element type Byte and
count -1 decodes successfully to a tag (an empty list keeping the negative
count), with no InvalidLength error, contradicting the claim that a
negative count fails rather than returning a tag. -/
theorem claim5_counterexample :
    tagRead .tList [1, 255, 255, 255, 255] false
      = .ok (.tagList none (-1) .tByte [], 5) := by
  simp [tagRead, readName, pySliceFrom, lookupKind, sbyte, toSigned, beNat,
    takeExact, tagReadListEntries]

/-- C5 amended: a negative declared count raises no InvalidLength error
(the code defines none).  A List payload with a negative count decodes to
a list with zero elements, because xrange of a negative number is empty;
a ByteArray payload with a negative count slices from the end of the
stream and, when no more than the magnitude of the count bytes remain,
decodes to an empty array while reporting a byte count reduced by the
magnitude. -/
theorem claim5_negative_count (tb0 : Nat) (k : TagKind) (cb rest : List Nat)
    (c : Int)
    (hk : lookupKind (sbyte tb0) = some k)
    (hcb : cb.length = 4)
    (hc : toSigned 4 (beNat cb) = c)
    (hneg : c < 0) :
    tagRead .tList ((tb0 :: cb) ++ rest) false = .ok (.tagList none c k [], 5) ∧
    ((rest.length : Int) ≤ -c →
      tagRead .tByteArray (cb ++ rest) false
        = .ok (.tagByteArray none c [], 4 + c)) := by
  have htake : takeExact 4 (cb ++ rest) = some cb := by
    rw [← hcb]
    exact takeExact_append cb rest
  have htoNat : c.toNat = 0 := Int.toNat_of_nonpos (le_of_lt hneg)
  constructor
  · rw [List.cons_append, tagRead_list_unnamed]
    simp [hk, htake, hc, htoNat, tagReadListEntries]
  · intro hrest
    have hslice : pySliceFrom (cb ++ rest) 4 = rest := by
      have h4 := pySliceFrom_append cb rest
      rw [hcb] at h4
      simpa using h4
    have hempty : pyTake rest c = [] := by
      unfold pyTake
      rw [if_neg (by omega)]
      have hz : ((rest.length : Int) + c).toNat = 0 := by omega
      simp [hz]
    simp [tagRead, readByteArrayTag, readName, pySliceFrom_zero, htake, hc,
      hslice, hempty, not_le.mpr hneg]

/-- Witness for claim5_negative_count: element type Byte, count -2, one
byte remaining. -/
theorem claim5_witness :
    lookupKind (sbyte 1) = some .tByte ∧
    toSigned 4 (beNat [255, 255, 255, 254]) = -2 ∧
    tagRead .tList ((1 :: [255, 255, 255, 254]) ++ [9]) false
      = .ok (.tagList none (-2) .tByte [], 5) ∧
    tagRead .tByteArray ([255, 255, 255, 254] ++ [9]) false
      = .ok (.tagByteArray none (-2) [], 4 + (-2)) := by
  have h := claim5_negative_count 1 .tByte [255, 255, 255, 254] [9] (-2)
    rfl rfl (by decide) (by decide)
  exact ⟨rfl, by decide, h.1, h.2 (by decide)⟩

/-- C8: an empty List still writes its declared element type id byte and
a zero count, and reading those five bytes back yields an empty list that
records the same element type, for every tag kind. -/
theorem claim8_empty_list_roundtrip (k : TagKind) (rest : List Nat) :
    tagWrite (.tagList none 0 k []) false = .ok (byteOfKind k :: [0, 0, 0, 0]) ∧
    tagRead .tList ((byteOfKind k :: [0, 0, 0, 0]) ++ rest) false
      = .ok (.tagList none 0 k [], 5) := by
  constructor
  · cases k <;> rfl
  · rw [List.cons_append, tagRead_list_unnamed, lookupKind_byteOfKind]
    have hc0 : toSigned 4 (beNat [0, 0, 0, 0]) = 0 := by decide
    simp [takeExact, hc0, tagReadListEntries]

/-- C7: document decoding of the empty buffer succeeds with an empty root
sequence, and on any stream where one root tag parses and the reported
byte count shrinks the stream, the document read accumulates that tag in
front of the tags of the remainder, in order. -/
theorem claim7_document_read :
    nbtRead [] = .ok [] ∧
    ∀ s t n, nbtReadTag s = .ok (t, n) →
      (pySliceFrom s n).length < s.length →
      nbtRead s = (nbtRead (pySliceFrom s n)).map (t :: ·) := by
  constructor
  · simp [nbtRead]
  · intro s t n h hlt
    cases s with
    | nil => simp [nbtReadTag] at h
    | cons b s1 =>
      rw [nbtRead]
      simp only [h]
      rw [dif_pos hlt]
      cases hrest : nbtRead (pySliceFrom (b :: s1) n) <;> simp [hrest, Except.map]

/-- Witness for claim7_document_read: a document holding one named Byte
tag decodes to that single tag. -/
theorem claim7_witness :
    nbtRead [1, 0, 0, 7] = .ok [.tagByte (some ⟨0, []⟩) 7] := by
  have h1 : nbtReadTag [1, 0, 0, 7] = .ok (.tagByte (some ⟨0, []⟩) 7, 4) := by
    simp [nbtReadTag, tagRead, readBasic, readName, readStringCore, takeExact,
      pyTake, pySliceFrom, lookupKind, sbyte, toSigned, beNat]
  have h2 := claim7_document_read.2 [1, 0, 0, 7] _ 4 h1 (by decide)
  rw [h2]
  have h3 : pySliceFrom [1, 0, 0, 7] 4 = [] := rfl
  rw [h3, claim7_document_read.1]
  rfl

theorem tagName_nestedTag (d : Nat) : tagName (nestedTag d) = some ⟨0, []⟩ := by
  cases d <;> rfl

/-- Reading one named nested compound entry: two empty-name bytes then the
nested payload, independent of the following bytes. -/
theorem nested_read (d : Nat) : ∀ rest,
    tagRead .tCompound ((0 :: 0 :: nestedPayload d) ++ rest) true
      = .ok (nestedTag d, 2 + ((nestedPayload d).length : Int)) := by
  have hsc : ∀ x : List Nat, readStringCore (0 :: 0 :: x) = .ok (⟨0, []⟩, 2) :=
    fun x => rfl
  induction d with
  | zero =>
    intro rest
    rw [tagRead]
    simp [readName_true, hsc, nestedPayload, nestedTag,
      tagReadCompoundEntries, pySliceFrom, lookupKind, sbyte, toSigned]
  | succ d ih =>
    intro rest
    have hnt := tagName_nestedTag d
    have hih : tagRead .tCompound (0 :: 0 :: (nestedPayload d ++ (0 :: rest))) true
        = .ok (nestedTag d, 2 + ((nestedPayload d).length : Int)) := by
      have h := ih (0 :: rest)
      simpa [List.cons_append] using h
    have hdropN : pySliceFrom (0 :: 0 :: (nestedPayload d ++ (0 :: rest)))
        (2 + ((nestedPayload d).length : Int)) = 0 :: rest := by
      have h := pySliceFrom_append (0 :: 0 :: nestedPayload d) (0 :: rest)
      have hlen : (((0 :: 0 :: nestedPayload d).length : Nat) : Int)
          = 2 + ((nestedPayload d).length : Int) := by
        push_cast [List.length_cons]
        ring
      rw [hlen] at h
      simpa [List.cons_append] using h
    have hloop : tagReadCompoundEntries (nestedPayload (d + 1) ++ rest) []
        = .ok ([([], nestedTag d)], ((nestedPayload (d + 1)).length : Int)) := by
      rw [show nestedPayload (d + 1) = 10 :: 0 :: 0 :: (nestedPayload d ++ [0]) from rfl]
      simp only [List.cons_append, List.append_assoc, List.singleton_append]
      simp [hih, hnt, hdropN, tagReadCompoundEntries, dictInsert,
        lookupKind, sbyte, toSigned]
      all_goals omega
    rw [tagRead]
    have hdrop2 : ∀ x : List Nat, pySliceFrom (0 :: 0 :: x) 2 = x := fun x => rfl
    simp only [List.cons_append, readName_true, hsc, hdrop2, hloop]
    simp [nestedTag]

/-- Document decoding of one nested compound of any depth succeeds. -/
theorem nbtRead_nested (d : Nat) :
    nbtRead (10 :: 0 :: 0 :: nestedPayload d) = .ok [nestedTag d] := by
  have hread : nbtReadTag (10 :: 0 :: 0 :: nestedPayload d)
      = .ok (nestedTag d, 1 + (2 + ((nestedPayload d).length : Int))) := by
    have h := nested_read d []
    simp only [List.append_nil] at h
    simp [nbtReadTag, h, lookupKind, sbyte, toSigned]
  have hdropAll : pySliceFrom (10 :: 0 :: 0 :: nestedPayload d)
      (1 + (2 + ((nestedPayload d).length : Int))) = [] := by
    unfold pySliceFrom
    rw [if_pos (by omega)]
    have hn : (1 + (2 + ((nestedPayload d).length : Int))).toNat
        = 3 + (nestedPayload d).length := by omega
    rw [hn]
    apply List.drop_eq_nil_of_le
    simp
    omega
  rw [nbtRead]
  simp only [hread, hdropAll]
  rw [dif_pos (by simp)]
  simp [nbtRead]

/-- C9 amended: the decoder imposes no recursion-depth guard and defines
no NestingTooDeep error; in the abstract input semantics well-formed
nested input of every depth decodes successfully (on a real interpreter
the only bound is the host stack, whose overflow is an interpreter crash,
not a dedicated error). -/
theorem claim9_no_depth_guard :
    ∀ d, nbtRead (10 :: 0 :: 0 :: nestedPayload d) = .ok [nestedTag d] :=
  nbtRead_nested

/-- C9 counterexample: a document whose single compound nests 300 levels
deep decodes successfully, so no configurable maximum depth makes deeper
inputs fail with a NestingTooDeep error (no such error exists in the
code). -/
theorem claim9_counterexample :
    nbtRead (10 :: 0 :: 0 :: nestedPayload 300) = .ok [nestedTag 300] :=
  nbtRead_nested 300

theorem mem_dictKeys_insert (d : List (List Nat × Tag)) (k : List Nat) (v : Tag)
    (a : List Nat) :
    a ∈ dictKeys (dictInsert d k v) ↔ a ∈ dictKeys d ∨ a = k := by
  induction d with
  | nil => simp [dictInsert, dictKeys]
  | cons p rest ih =>
    obtain ⟨k0, v0⟩ := p
    by_cases hk : k0 = k
    · subst hk
      simp [dictInsert, dictKeys]
      tauto
    · simp [dictInsert, hk, dictKeys] at ih ⊢
      tauto

theorem dictInsert_length_of_mem (d : List (List Nat × Tag)) (k : List Nat)
    (v : Tag) (h : k ∈ dictKeys d) :
    (dictInsert d k v).length = d.length := by
  induction d with
  | nil => simp [dictKeys] at h
  | cons p rest ih =>
    obtain ⟨k0, v0⟩ := p
    by_cases hk : k0 = k
    · simp [dictInsert, hk]
    · have h2 : k ∈ dictKeys rest := by
        simp [dictKeys] at h
        rcases h with h | h
        · exact absurd h.symm hk
        · simpa [dictKeys] using h
      simp [dictInsert, hk, ih h2]

theorem dictInsert_length_of_not_mem (d : List (List Nat × Tag)) (k : List Nat)
    (v : Tag) (h : k ∉ dictKeys d) :
    (dictInsert d k v).length = d.length + 1 := by
  induction d with
  | nil => rfl
  | cons p rest ih =>
    obtain ⟨k0, v0⟩ := p
    by_cases hk : k0 = k
    · exact absurd (by simp [dictKeys, hk]) h
    · have h2 : k ∉ dictKeys rest := by
        intro hc
        exact h (by simp [dictKeys] at hc ⊢; tauto)
      simp [dictInsert, hk, ih h2]

theorem dictInsert_length_le (d : List (List Nat × Tag)) (k : List Nat) (v : Tag) :
    (dictInsert d k v).length ≤ d.length + 1 := by
  by_cases hm : k ∈ dictKeys d
  · rw [dictInsert_length_of_mem d k v hm]
    omega
  · rw [dictInsert_length_of_not_mem d k v hm]

theorem dictLookup_insert (d : List (List Nat × Tag)) (k : List Nat) (v : Tag)
    (k2 : List Nat) :
    dictLookup (dictInsert d k v) k2 = if k = k2 then some v else dictLookup d k2 := by
  induction d with
  | nil => simp [dictInsert, dictLookup]
  | cons p rest ih =>
    obtain ⟨k0, v0⟩ := p
    by_cases hk : k0 = k
    · subst hk
      by_cases h2 : k0 = k2 <;> simp [dictInsert, dictLookup, h2]
    · by_cases h2 : k0 = k2
      · subst h2
        have hne : ¬(k = k0) := fun hh => hk hh.symm
        simp [dictInsert, hk, dictLookup, hne]
      · simp [dictInsert, hk, dictLookup, h2, ih]

theorem insDict_nil (acc : List (List Nat × Tag)) : insDict acc [] = acc := rfl

theorem insDict_cons (acc : List (List Nat × Tag)) (e : WireEntry)
    (es : List WireEntry) :
    insDict acc (e :: es) = insDict (dictInsert acc e.key e.tag) es := rfl

theorem insDict_length_le (es : List WireEntry) :
    ∀ acc, (insDict acc es).length ≤ acc.length + es.length := by
  induction es with
  | nil => intro acc; simp [insDict]
  | cons e es ih =>
    intro acc
    rw [insDict_cons]
    have h1 := ih (dictInsert acc e.key e.tag)
    have h2 := dictInsert_length_le acc e.key e.tag
    simp only [List.length_cons]
    omega

theorem insDict_length_nodup (es : List WireEntry) :
    ∀ acc, (es.map (·.key)).Nodup → (∀ e ∈ es, e.key ∉ dictKeys acc) →
      (insDict acc es).length = acc.length + es.length := by
  induction es with
  | nil => intro acc _ _; simp [insDict]
  | cons e es ih =>
    intro acc hnd hdisj
    rw [insDict_cons]
    have hkey : e.key ∉ dictKeys acc := hdisj e (by simp)
    have hlen := dictInsert_length_of_not_mem acc e.key e.tag hkey
    rw [List.map_cons, List.nodup_cons] at hnd
    have hdisj2 : ∀ e2 ∈ es, e2.key ∉ dictKeys (dictInsert acc e.key e.tag) := by
      intro e2 he2
      rw [mem_dictKeys_insert]
      push_neg
      refine ⟨hdisj e2 (by simp [he2]), ?_⟩
      intro hc
      exact hnd.1 (List.mem_map.mpr ⟨e2, he2, hc⟩)
    rw [ih _ hnd.2 hdisj2, hlen]
    simp only [List.length_cons]
    omega

theorem insDict_length_lt (es : List WireEntry) :
    ∀ acc, (¬ (es.map (·.key)).Nodup ∨ ∃ e ∈ es, e.key ∈ dictKeys acc) →
      (insDict acc es).length < acc.length + es.length := by
  induction es with
  | nil =>
    intro acc h
    rcases h with h | ⟨e, he, _⟩
    · simp at h
    · simp at he
  | cons e es ih =>
    intro acc h
    rw [insDict_cons]
    by_cases hm : e.key ∈ dictKeys acc
    · have hlen := dictInsert_length_of_mem acc e.key e.tag hm
      have hb := insDict_length_le es (dictInsert acc e.key e.tag)
      simp only [List.length_cons]
      omega
    · have hlen := dictInsert_length_of_not_mem acc e.key e.tag hm
      have h2 : ¬ (es.map (·.key)).Nodup ∨
          ∃ e2 ∈ es, e2.key ∈ dictKeys (dictInsert acc e.key e.tag) := by
        rcases h with hnd | ⟨e2, he2, hk2⟩
        · rw [List.map_cons, List.nodup_cons] at hnd
          by_cases hnd2 : (es.map (·.key)).Nodup
          · right
            have hin : e.key ∈ es.map (·.key) := by
              by_contra hcon
              exact hnd ⟨hcon, hnd2⟩
            obtain ⟨e2, he2, hk2⟩ := List.mem_map.mp hin
            exact ⟨e2, he2, by rw [mem_dictKeys_insert]; right; exact hk2⟩
          · left
            exact hnd2
        · rcases List.mem_cons.mp he2 with he2 | he2
          · subst he2
            exact absurd hk2 hm
          · right
            exact ⟨e2, he2, by rw [mem_dictKeys_insert]; left; exact hk2⟩
      have := ih _ h2
      simp only [List.length_cons]
      omega

theorem insDict_lookup (es : List WireEntry) :
    ∀ acc k2, dictLookup (insDict acc es) k2
      = Option.or (lastKeyed es k2) (dictLookup acc k2) := by
  induction es with
  | nil => intro acc k2; simp [insDict, lastKeyed, Option.or]
  | cons e es ih =>
    intro acc k2
    rw [insDict_cons, ih, dictLookup_insert]
    cases hl : lastKeyed es k2 with
    | some t => simp [lastKeyed, hl, Option.or]
    | none =>
      by_cases hk : e.key = k2 <;> simp [lastKeyed, hl, hk, Option.or]

/-- The Compound entry loop over a payload made of parseable entry blocks
followed by the End byte: it consumes every block plus the End byte and
inserts each entry in order into the accumulated dict. -/
theorem compound_entries_blocks (es : List WireEntry) (rest : List Nat)
    (h : ∀ e ∈ es, EntryBlock e) :
    ∀ acc, tagReadCompoundEntries ((es.map (·.block)).flatten ++ 0 :: rest) acc
      = .ok (insDict acc es, (es.map (fun e => (e.block.length : Int))).sum + 1) := by
  induction es with
  | nil =>
    intro acc
    simp [tagReadCompoundEntries, lookupKind, sbyte, toSigned, insDict]
  | cons e es ih =>
    intro acc
    obtain ⟨k, kb, body, nd, hb, hk, hne, hn, hkey, hread⟩ := h e (by simp)
    have hrest2 : ∀ e2 ∈ es, EntryBlock e2 := fun e2 he2 => h e2 (by simp [he2])
    rw [List.map_cons, List.flatten_cons, hb]
    simp only [List.cons_append, List.append_assoc]
    have hread2 := hread ((es.map (·.block)).flatten ++ 0 :: rest)
    have hdrop := pySliceFrom_append body ((es.map (·.block)).flatten ++ 0 :: rest)
    simp [tagReadCompoundEntries, hk, hne, hread2, hn, hkey, hdrop,
      ih hrest2, insDict, hb]
    omega

/-- C2 counterexample: a Compound payload holding two wire entries that
share the name a (each five bytes: type Byte, name length 1, the byte 97,
one payload byte) followed by the End byte decodes with the claimed
byte count 5 + 5 + 1 = 11 but with child count 1, not the wire entry
count 2: the dict keeps one child for the repeated name. -/
theorem claim2_counterexample :
    tagRead .tCompound [1, 0, 1, 97, 5, 1, 0, 1, 97, 6, 0] false
      = .ok (.tagCompoundD none [([97], .tagByte (some ⟨1, [97]⟩) 6)], 11) ∧
    ([([97], Tag.tagByte (some ⟨1, [97]⟩) 6)] : List (List Nat × Tag)).length = 1 := by
  constructor
  · simp [tagRead, readName, tagReadCompoundEntries, readBasic, readStringCore,
      takeExact, pyTake, pySliceFrom, lookupKind, sbyte, toSigned, beNat,
      dictInsert, tagName]
  · rfl

/-- C2 amended: decoding a Compound payload of n parseable named entry
blocks followed by one End byte consumes exactly the sum of the block
sizes (type id, name, payload each) plus one, and the decoded child count
equals the number of distinct entry names, which is n exactly when the
names are pairwise distinct (duplicate names collapse into one dict
slot). -/
theorem claim2_compound_framing (es : List WireEntry) (rest : List Nat)
    (h : ∀ e ∈ es, EntryBlock e) :
    tagRead .tCompound ((es.map (·.block)).flatten ++ 0 :: rest) false
      = .ok (.tagCompoundD none (insDict [] es),
          (es.map (fun e => (e.block.length : Int))).sum + 1) ∧
    ((es.map (·.key)).Nodup → (insDict [] es).length = es.length) := by
  constructor
  · have hloop := compound_entries_blocks es rest h []
    rw [tagRead]
    simp [readName_false, pySliceFrom_zero, hloop]
  · intro hnd
    have := insDict_length_nodup es [] hnd (by simp [dictKeys])
    simpa using this

/-- Witness for claim2_compound_framing: two Byte entries named a and b;
the read consumes 5 + 5 + 1 = 11 bytes and the child count is 2. -/
theorem claim2_witness :
    tagRead .tCompound [1, 0, 1, 97, 5, 1, 0, 1, 98, 6, 0] false
      = .ok (.tagCompoundD none
          [([97], .tagByte (some ⟨1, [97]⟩) 5), ([98], .tagByte (some ⟨1, [98]⟩) 6)], 11) ∧
    (insDict [] [⟨[1, 0, 1, 97, 5], .tagByte (some ⟨1, [97]⟩) 5, [97]⟩,
        ⟨[1, 0, 1, 98, 6], .tagByte (some ⟨1, [98]⟩) 6, [98]⟩]).length = 2 := by
  have hb1 : EntryBlock ⟨[1, 0, 1, 97, 5], .tagByte (some ⟨1, [97]⟩) 5, [97]⟩ :=
    ⟨.tByte, 1, [0, 1, 97, 5], ⟨1, [97]⟩, rfl, rfl, by decide, rfl, rfl, by
      intro r
      simp [tagRead, readBasic, readName, readStringCore, takeExact, pyTake,
        pySliceFrom, toSigned, beNat]⟩
  have hb2 : EntryBlock ⟨[1, 0, 1, 98, 6], .tagByte (some ⟨1, [98]⟩) 6, [98]⟩ :=
    ⟨.tByte, 1, [0, 1, 98, 6], ⟨1, [98]⟩, rfl, rfl, by decide, rfl, rfl, by
      intro r
      simp [tagRead, readBasic, readName, readStringCore, takeExact, pyTake,
        pySliceFrom, toSigned, beNat]⟩
  have h := claim2_compound_framing
    [⟨[1, 0, 1, 97, 5], .tagByte (some ⟨1, [97]⟩) 5, [97]⟩,
     ⟨[1, 0, 1, 98, 6], .tagByte (some ⟨1, [98]⟩) 6, [98]⟩] []
    (by
      intro e he
      rcases List.mem_cons.mp he with he | he
      · subst he; exact hb1
      · rcases List.mem_cons.mp he with he | he
        · subst he; exact hb2
        · simp at he)
  refine ⟨?_, ?_⟩
  · have h1 := h.1
    simpa [insDict, dictInsert] using h1
  · exact h.2 (by decide)

/-- C10: when a Compound payload holds wire entries with repeated names,
the decoded compound keeps for each name only the entry read last (dict
assignment overwrites), so the child count is strictly smaller than the
number of wire entries. -/
theorem claim10_duplicate_names_last_wins (es : List WireEntry) (rest : List Nat)
    (h : ∀ e ∈ es, EntryBlock e)
    (hdup : ¬ (es.map (·.key)).Nodup) :
    tagRead .tCompound ((es.map (·.block)).flatten ++ 0 :: rest) false
      = .ok (.tagCompoundD none (insDict [] es),
          (es.map (fun e => (e.block.length : Int))).sum + 1) ∧
    (insDict [] es).length < es.length ∧
    ∀ k2, dictLookup (insDict [] es) k2 = lastKeyed es k2 := by
  refine ⟨?_, ?_, ?_⟩
  · have hloop := compound_entries_blocks es rest h []
    rw [tagRead]
    simp [readName_false, pySliceFrom_zero, hloop]
  · have := insDict_length_lt es [] (Or.inl hdup)
    simpa using this
  · intro k2
    have := insDict_lookup es [] k2
    rw [this]
    cases lastKeyed es k2 <;> simp [dictLookup, Option.or]

/-- Witness for claim10_duplicate_names_last_wins: two entries named a
with payloads 5 then 6; the decoded compound holds one child, the one
with payload 6. -/
theorem claim10_witness :
    tagRead .tCompound [1, 0, 1, 97, 5, 1, 0, 1, 97, 6, 0] false
      = .ok (.tagCompoundD none
          (insDict [] [⟨[1, 0, 1, 97, 5], .tagByte (some ⟨1, [97]⟩) 5, [97]⟩,
            ⟨[1, 0, 1, 97, 6], .tagByte (some ⟨1, [97]⟩) 6, [97]⟩]), 11) ∧
    (insDict [] [⟨[1, 0, 1, 97, 5], .tagByte (some ⟨1, [97]⟩) 5, [97]⟩,
        ⟨[1, 0, 1, 97, 6], .tagByte (some ⟨1, [97]⟩) 6, [97]⟩]).length < 2 ∧
    dictLookup (insDict [] [⟨[1, 0, 1, 97, 5], .tagByte (some ⟨1, [97]⟩) 5, [97]⟩,
        ⟨[1, 0, 1, 97, 6], .tagByte (some ⟨1, [97]⟩) 6, [97]⟩]) [97]
      = some (.tagByte (some ⟨1, [97]⟩) 6) := by
  have hb1 : EntryBlock ⟨[1, 0, 1, 97, 5], .tagByte (some ⟨1, [97]⟩) 5, [97]⟩ :=
    ⟨.tByte, 1, [0, 1, 97, 5], ⟨1, [97]⟩, rfl, rfl, by decide, rfl, rfl, by
      intro r
      simp [tagRead, readBasic, readName, readStringCore, takeExact, pyTake,
        pySliceFrom, toSigned, beNat]⟩
  have hb2 : EntryBlock ⟨[1, 0, 1, 97, 6], .tagByte (some ⟨1, [97]⟩) 6, [97]⟩ :=
    ⟨.tByte, 1, [0, 1, 97, 6], ⟨1, [97]⟩, rfl, rfl, by decide, rfl, rfl, by
      intro r
      simp [tagRead, readBasic, readName, readStringCore, takeExact, pyTake,
        pySliceFrom, toSigned, beNat]⟩
  have h := claim10_duplicate_names_last_wins
    [⟨[1, 0, 1, 97, 5], .tagByte (some ⟨1, [97]⟩) 5, [97]⟩,
     ⟨[1, 0, 1, 97, 6], .tagByte (some ⟨1, [97]⟩) 6, [97]⟩] []
    (by
      intro e he
      rcases List.mem_cons.mp he with he | he
      · subst he; exact hb1
      · rcases List.mem_cons.mp he with he | he
        · subst he; exact hb2
        · simp at he)
    (by decide)
  refine ⟨?_, h.2.1, ?_⟩
  · have h1 := h.1
    simpa using h1
  · rw [h.2.2 [97]]
    rfl

end PyNbt
